import Mathlib

/-!
# Verification of the `envflag` package

A shallow embedding of the `envflag` Go package (`envflag.go`), which wraps
the parsing of the standard `flag` package so that environment variables are
used as a source for flags left unset by the command line.

The standard `flag` package is an external collaborator of the repository; it
is embedded here following its documented parsing semantics
(`flag.FlagSet.Parse` / `parseOne` with `ContinueOnError` error handling):
`--name=value`, `--name value` for non-boolean flags, `--name` for boolean
flags, a lone `--` terminating flag parsing, parsing stopping at the first
non-flag argument, and a set of actually-set flags (`Visit`) next to the set
of registered flags (`VisitAll`).

Machine-level details that the claims do not touch (usage output, the exact
error messages, `ExitOnError`/`PanicOnError` handling) are not modelled: an
error is represented by the boolean `false` in the result, success by `true`.
-/

namespace Envflag

/-- A registered flag. Models `flag.Flag` together with its `flag.Value`:
`value` is the current string-encoded value (what `Value.String()` reports),
`setFn` models `Value.Set` (returning the new string encoding on success and
`none` on a parse error), and `isBool` models the optional
`IsBoolFlag() bool` capability used by `isBoolFlag` in `envflag.go`. -/
structure Flag where
  name : String
  defValue : String
  value : String
  isBool : Bool
  setFn : String → Option String

/-- Models `flag.FlagSet`: `formal` holds the registered flags (`VisitAll`),
`actual` the names of flags that have actually been set (`Visit`), and
`args` the positional arguments left over by `Parse` (`FlagSet.Args()`). -/
structure FlagSet where
  formal : List Flag
  actual : List String
  args : List String

/-- Find a registered flag by name (`f.formal[name]`). -/
def lookupFlag : List Flag → String → Option Flag
  | [], _ => none
  | f :: fs, n => if f.name = n then some f else lookupFlag fs n

/-- Store a successfully parsed value into the named flag. -/
def updateValue : List Flag → String → String → List Flag
  | [], _, _ => []
  | f :: fs, n, w => (if f.name = n then { f with value := w } else f) :: updateValue fs n w

/-- Record a flag name as actually set (`f.actual[name] = flag`, a map, so
inserting an already present name is a no-op). -/
def addName (n : String) (l : List String) : List String :=
  if n ∈ l then l else n :: l

/-- Split a character list at the first `=`, returning the part before it and
(if an `=` was found) the part after it. -/
def splitEqFrom : List Char → List Char × Option (List Char)
  | [] => ([], none)
  | c :: rest =>
    if c = '=' then ([], some rest)
    else
      let p := splitEqFrom rest
      (c :: p.1, p.2)

/-- Split a flag token into name and optional value, searching for `=` only
from index 1 onwards ("equals cannot be first", as in `parseOne`). -/
def splitEq1 : List Char → List Char × Option (List Char)
  | [] => ([], none)
  | c :: rest =>
    let p := splitEqFrom rest
    (c :: p.1, p.2)

/-- What `parseOne` decides to do with one argument token, before any value
is stored: stop treating arguments as flags (keeping the token as a
positional argument), consume a `--` terminator, fail on bad syntax, fail on
an undefined flag name (which covers the `help`/`h` special case: that also
returns a non-nil error, `ErrHelp`), set a named flag to an inline (or
implicit boolean `true`) value, or set a named non-boolean flag whose value
must come from the next argument. -/
inductive Inst where
  | stopPos : Inst
  | term : Inst
  | badSyntax : Inst
  | undef : Inst
  | setVal (name : String) (v : String) : Inst
  | needsArg (name : String) : Inst

/-- The argument analysis of `parseOne` on one token `s`: minus counting,
the `--` terminator, bad-syntax detection, splitting `name=value` at the
first `=` (from index 1), flag lookup, and the boolean-flag special case
that allows a missing value. -/
def decode (formal : List Flag) (s : String) : Inst :=
  let cs := s.data
  if cs.length < 2 ∨ cs.head? ≠ some '-' then .stopPos
  else if cs.get? 1 = some '-' ∧ cs.length = 2 then .term
  else
    let nm := if cs.get? 1 = some '-' then 2 else 1
    let nameVal := cs.drop nm
    if nameVal = [] ∨ nameVal.head? = some '-' ∨ nameVal.head? = some '=' then .badSyntax
    else
      let p := splitEq1 nameVal
      let name := String.mk p.1
      match lookupFlag formal name with
      | none => .undef
      | some f =>
        if f.isBool then
          match p.2 with
          | some vcs => .setVal name (String.mk vcs)
          | none => .setVal name "true"
        else
          match p.2 with
          | some vcs => .setVal name (String.mk vcs)
          | none => .needsArg name

/-- `flag.Value.Set` on the named flag: the parsed new string encoding, or
`none` on error (also when the flag does not exist, a case `decode` never
produces for `setVal`/`needsArg`). -/
def setFnOf (formal : List Flag) (name v : String) : Option String :=
  match lookupFlag formal name with
  | some f => f.setFn v
  | none => none

/-- One pass of `flag.FlagSet.Parse`: repeatedly consume one flag argument as
`parseOne` does. Returns the final flag set (registered flags with updated
values, set-name set, remaining positional arguments) and a success flag
(`false` models a non-nil error under `ContinueOnError`). -/
def parseLoop (formal : List Flag) (actual : List String) : List String → FlagSet × Bool
  | [] => (⟨formal, actual, []⟩, true)
  | s :: rest =>
    match decode formal s with
    | .stopPos => (⟨formal, actual, s :: rest⟩, true)
    | .term => (⟨formal, actual, rest⟩, true)
    | .badSyntax => (⟨formal, actual, s :: rest⟩, false)
    | .undef => (⟨formal, actual, rest⟩, false)
    | .setVal name v =>
      match setFnOf formal name v with
      | none => (⟨formal, actual, rest⟩, false)
      | some w => parseLoop (updateValue formal name w) (addName name actual) rest
    | .needsArg name =>
      match rest with
      | [] => (⟨formal, actual, []⟩, false)
      | v :: rest2 =>
        match setFnOf formal name v with
        | none => (⟨formal, actual, rest2⟩, false)
        | some w => parseLoop (updateValue formal name w) (addName name actual) rest2

/-- `flag.FlagSet.Parse` with `ContinueOnError` semantics. -/
def FlagSet.parse (fs : FlagSet) (arguments : List String) : FlagSet × Bool :=
  parseLoop fs.formal fs.actual arguments

/-- Models `strings.ToUpper` (character-wise upper casing; flag names and
prefixes are ASCII, where this is exact). -/
def toUpperStr (s : String) : String := String.mk (s.data.map Char.toUpper)

/-- Models `strings.ToLower` (character-wise lower casing). -/
def toLowerStr (s : String) : String := String.mk (s.data.map Char.toLower)

/-- Models `strings.Replace(s, old, new, -1)` for single-character `old` and
`new`, the only form used by `envflag.go`. -/
def replaceChar (c r : Char) (s : String) : String :=
  String.mk (s.data.map (fun x => if x = c then r else x))

/-- The environment key computed by `func env`: upper-case the name, then
replace every `.` and every `-` by `_`. -/
def envKey (name : String) : String :=
  replaceChar '-' '_' (replaceChar '.' '_' (toUpperStr name))

/-- `func env`: look the transformed key up in the environment
(`os.LookupEnv`, modelled as a function from keys to optional values). -/
def envLookup (environ : String → Option String) (name : String) : Option String :=
  environ (envKey name)

/-- The boolean-value normalization switch in `Parse`: case-insensitively,
`true`/`yes`/`y`/`1` become `"true"`, `false`/`no`/`n`/`0` become `"false"`,
and anything else is passed through unchanged. -/
def normalizeBool (v : String) : String :=
  let l := toLowerStr v
  if l = "true" ∨ l = "yes" ∨ l = "y" ∨ l = "1" then "true"
  else if l = "false" ∨ l = "no" ∨ l = "n" ∨ l = "0" then "false"
  else v

/-- The value placed into the synthesized argument for flag `f`: normalized
when `isBoolFlag(f.Value)` holds, verbatim otherwise. -/
def envValue (f : Flag) (v : String) : String :=
  if f.isBool then normalizeBool v else v

/-- The synthesized arguments contributed by one unset flag: one
`--name=value` entry when the environment variable exists, nothing
otherwise. -/
def contrib (environ : String → Option String) (pfx : String) (f : Flag) : List String :=
  match envLookup environ (pfx ++ f.name) with
  | some v => ["--" ++ f.name ++ "=" ++ envValue f v]
  | none => []

/-- The unset map built by `Parse`: every registered flag (`VisitAll`) minus
every flag actually set by the first pass (`Visit`). -/
def unsetFlags (fs : FlagSet) : List Flag :=
  fs.formal.filter (fun f => decide (f.name ∉ fs.actual))

/-- The `--name=value` entries accumulated over a list of flags. -/
def envArgsOf (environ : String → Option String) (pfx : String) : List Flag → List String
  | [] => []
  | f :: fs => contrib environ pfx f ++ envArgsOf environ pfx fs

/-- The full synthesized environment-derived argument list of `Parse`. -/
def envArgs (environ : String → Option String) (pfx : String) (fs : FlagSet) : List String :=
  envArgsOf environ pfx (unsetFlags fs)

/-- The option record built by `Parse` from its functional options: the flag
set to operate on (`FlagSet`), the argument list (`Args`), and the prefix for
environment lookups (`Prefix`, field `pfx` here). The defaults
(`flag.CommandLine`, `os.Args[1:]`, `""`) are process-global inputs supplied
by the caller of the model. -/
structure option where
  set : FlagSet
  args : List String
  pfx : String

/-- `envflag.Parse`: first pass over the argument list; on success, one
synthesized `--name=value` per unset flag with a matching environment
variable; if any, a second pass over those, with `--` and the first pass's
positional arguments re-appended when there are any. -/
def Parse (environ : String → Option String) (o : option) : FlagSet × Bool :=
  let r1 := FlagSet.parse o.set o.args
  if r1.2 = false then r1
  else
    let args := envArgs environ o.pfx r1.1
    if args = [] then (r1.1, true)
    else
      let args2 := if r1.1.args = [] then args else args ++ "--" :: r1.1.args
      FlagSet.parse r1.1 args2

/-- The current string-encoded value of the named flag. -/
def valueOf (fs : FlagSet) (n : String) : Option String :=
  (lookupFlag fs.formal n).map Flag.value

/-- A sane flag name: nonempty, no `=`, not starting with `-` (names the
`flag` package can actually parse back). -/
def GoodName (n : String) : Prop :=
  n ≠ "" ∧ '=' ∉ n.data ∧ n.data.head? ≠ some '-'

instance : DecidablePred GoodName := fun n => by
  unfold GoodName
  infer_instance

/-- Well-formed flag set: registered names are distinct (they key a map in
the `flag` package) and sane. -/
def WF (fs : FlagSet) : Prop :=
  (fs.formal.map Flag.name).Nodup ∧ ∀ f ∈ fs.formal, GoodName f.name

/-- A freshly registered flag set: nothing set yet, every value equal to its
default (as `flag.FlagSet.Var` leaves it). -/
def Fresh (fs : FlagSet) : Prop :=
  fs.actual = [] ∧ ∀ f ∈ fs.formal, f.value = f.defValue

/-! ## Concrete flag value types (collaborator models for witnesses) -/

/-- Models `strconv.ParseBool`, used by `flag`'s boolean values. -/
def goParseBool (s : String) : Option Bool :=
  if s = "1" ∨ s = "t" ∨ s = "T" ∨ s = "true" ∨ s = "TRUE" ∨ s = "True" then some true
  else if s = "0" ∨ s = "f" ∨ s = "F" ∨ s = "false" ∨ s = "FALSE" ∨ s = "False" then some false
  else none

/-- `flag.boolValue.Set` followed by `String()`. -/
def boolSetFn (s : String) : Option String :=
  (goParseBool s).map (fun b => cond b "true" "false")

def decDigitVal (c : Char) : Option Nat :=
  if c.isDigit then some (c.toNat - 48) else none

def decNatAux : Nat → List Char → Option Nat
  | acc, [] => some acc
  | acc, c :: cs =>
    match decDigitVal c with
    | some d => decNatAux (acc * 10 + d) cs
    | none => none

/-- Models `strconv.ParseInt(s, 0, 64)` on plain decimal inputs (no base
prefix, no underscores, magnitudes far below 2^63 — the only inputs the
development evaluates it at), as used by `flag.intValue.Set`. -/
def parseDecInt (s : String) : Option Int :=
  match s.data with
  | [] => none
  | '-' :: cs => if cs = [] then none else (decNatAux 0 cs).map (fun n => -(n : Int))
  | '+' :: cs => if cs = [] then none else (decNatAux 0 cs).map (fun n => (n : Int))
  | cs => (decNatAux 0 cs).map (fun n => (n : Int))

/-- `flag.intValue.Set` followed by `String()`. -/
def intSetFn (s : String) : Option String :=
  (parseDecInt s).map (fun i => toString i)

/-- `flag.stringValue.Set`: always succeeds, stores verbatim. -/
def stringSetFn (s : String) : Option String := some s

/-- An int flag as `flag.FlagSet.Int` registers it. -/
def intFlag (n : String) (d : Int) : Flag :=
  { name := n, defValue := toString d, value := toString d, isBool := false, setFn := intSetFn }

/-- A bool flag as `flag.FlagSet.Bool` registers it. -/
def boolFlag (n : String) (d : Bool) : Flag :=
  { name := n, defValue := cond d "true" "false", value := cond d "true" "false",
    isBool := true, setFn := boolSetFn }

/-- A string flag as `flag.FlagSet.String` registers it. -/
def stringFlag (n d : String) : Flag :=
  { name := n, defValue := d, value := d, isBool := false, setFn := stringSetFn }

/-! ## Basic lemmas -/

theorem data_app (a b : String) : (a ++ b).data = a.data ++ b.data := rfl

theorem mk_data (s : String) : String.mk s.data = s := rfl

theorem eq_empty_of_data_nil {s : String} (h : s.data = []) : s = "" := by
  cases s with
  | mk d => cases h; rfl

theorem mem_addName {a n : String} {l : List String} :
    a ∈ addName n l ↔ a = n ∨ a ∈ l := by
  unfold addName
  split
  · rename_i h
    constructor
    · exact fun ha => Or.inr ha
    · rintro (rfl | ha)
      · exact h
      · exact ha
  · simp [List.mem_cons]

/-- The identity of a flag, everything except its current value. -/
def Flag.shape (f : Flag) : String × String × Bool × (String → Option String) :=
  (f.name, f.defValue, f.isBool, f.setFn)

theorem updateValue_shape (l : List Flag) (n w : String) :
    (updateValue l n w).map Flag.shape = l.map Flag.shape := by
  induction l with
  | nil => rfl
  | cons f fs ih =>
    simp only [updateValue, List.map_cons, ih, List.cons.injEq, and_true]
    split <;> rfl

theorem lookup_updateValue_ne (l : List Flag) {m n : String} (h : m ≠ n) (w : String) :
    lookupFlag (updateValue l m w) n = lookupFlag l n := by
  induction l with
  | nil => rfl
  | cons f fs ih =>
    simp only [updateValue, lookupFlag]
    by_cases hf : f.name = m
    · simp only [if_pos hf]
      have : ({ f with value := w } : Flag).name = f.name := rfl
      rw [show (if ({ f with value := w } : Flag).name = n then
            some { f with value := w } else lookupFlag (updateValue fs m w) n) =
          lookupFlag (updateValue fs m w) n from if_neg (by rw [this, hf]; exact h)]
      rw [if_neg (by rw [hf]; exact h), ih]


    · simp only [if_neg hf]
      by_cases hn : f.name = n
      · simp [lookupFlag, hn]
      · simp [lookupFlag, hn, ih]

theorem lookup_updateValue_eq (l : List Flag) {n : String} {f : Flag}
    (h : lookupFlag l n = some f) (w : String) :
    lookupFlag (updateValue l n w) n = some { f with value := w } := by
  induction l with
  | nil => cases h
  | cons g gs ih =>
    simp only [lookupFlag, updateValue] at h ⊢
    by_cases hg : g.name = n
    · rw [if_pos hg] at h
      cases h
      simp [if_pos hg, hg]
    · rw [if_neg hg] at h
      simp only [if_neg hg]
      exact ih h

theorem lookup_shape_eq {l₁ l₂ : List Flag}
    (h : l₁.map Flag.shape = l₂.map Flag.shape) (n : String) :
    (lookupFlag l₁ n).map Flag.shape = (lookupFlag l₂ n).map Flag.shape := by
  induction l₁ generalizing l₂ with
  | nil =>
    cases l₂ with
    | nil => rfl
    | cons g gs => simp at h
  | cons f fs ih =>
    cases l₂ with
    | nil => simp at h
    | cons g gs =>
      simp only [List.map_cons, List.cons.injEq] at h
      obtain ⟨h1, h2⟩ := h
      have hname : f.name = g.name := congrArg (fun p => p.1) h1
      simp only [lookupFlag]
      by_cases hn : f.name = n
      · rw [if_pos hn, if_pos (hname ▸ hn)]
        simp [h1]
      · rw [if_neg hn, if_neg (hname ▸ hn)]
        exact ih h2

theorem splitEqFrom_append (xs ys : List Char) (h : '=' ∉ xs) :
    splitEqFrom (xs ++ '=' :: ys) = (xs, some ys) := by
  induction xs with
  | nil => simp [splitEqFrom]
  | cons c cs ih =>
    simp only [List.mem_cons, not_or] at h
    simp [splitEqFrom, Ne.symm h.1, ih h.2]

/-! ## Stepping lemmas for the second parse pass -/

/-- The shape of every synthesized environment argument. -/
def mkItem (p : String × String) : String := "--" ++ p.1 ++ "=" ++ p.2

theorem mkItem_data (m v : String) :
    (mkItem (m, v)).data = '-' :: '-' :: (m.data ++ '=' :: v.data) := by
  show ("--" ++ m ++ "=" ++ v).data = _
  simp [data_app, List.append_assoc]

theorem parseLoop_nil (formal : List Flag) (actual : List String) :
    parseLoop formal actual [] = (⟨formal, actual, []⟩, true) := rfl

theorem decode_dashdash (formal : List Flag) : decode formal "--" = .term := rfl

theorem parseLoop_dashdash (formal : List Flag) (actual : List String) (post : List String) :
    parseLoop formal actual ("--" :: post) = (⟨formal, actual, post⟩, true) := by
  rw [parseLoop, decode_dashdash]

theorem decode_synth (formal : List Flag) (m v : String) (hm : GoodName m) :
    decode formal (mkItem (m, v)) =
      match lookupFlag formal m with
      | none => .undef
      | some _ => .setVal m v := by
  obtain ⟨hne, heq, hhd⟩ := hm
  obtain ⟨c, ms, hms⟩ : ∃ c ms, m.data = c :: ms := by
    cases hd : m.data with
    | nil => exact absurd (eq_empty_of_data_nil hd) hne
    | cons c ms => exact ⟨c, ms, rfl⟩
  have heq' : '=' ∉ ms := by
    rw [hms] at heq
    exact fun hmem => heq (List.mem_cons_of_mem c hmem)
  have hcne : c ≠ '=' := by
    rw [hms] at heq
    exact fun h => heq (h ▸ List.mem_cons_self c ms)
  have hcnd : c ≠ '-' := by
    intro h
    apply hhd
    rw [hms, h]
    rfl
  have hsplit : splitEq1 (c :: (ms ++ '=' :: v.data)) = (m.data, some v.data) := by
    simp only [splitEq1, splitEqFrom_append ms v.data heq', hms]
  have hdata : (mkItem (m, v)).data = '-' :: '-' :: c :: (ms ++ '=' :: v.data) := by
    rw [mkItem_data, hms]
    rfl
  simp only [decode, hdata]
  norm_num [hsplit, mk_data, hcnd, hcne]
  cases hl : lookupFlag formal m with
  | none => simp
  | some f => cases hb : f.isBool <;> simp [hb, mk_data]

theorem parseLoop_synth (formal : List Flag) (actual : List String) (m v : String)
    (rest : List String) (hm : GoodName m) :
    parseLoop formal actual (mkItem (m, v) :: rest) =
      match setFnOf formal m v with
      | none => (⟨formal, actual, rest⟩, false)
      | some w => parseLoop (updateValue formal m w) (addName m actual) rest := by
  rw [parseLoop, decode_synth formal m v hm]
  cases hl : lookupFlag formal m with
  | none => simp [setFnOf, hl]
  | some f => simp [setFnOf, hl]

/-! ## Invariants of a parse pass (arbitrary argument lists) -/

theorem parseLoop_shape : ∀ (args : List String) (formal : List Flag) (actual : List String),
    (parseLoop formal actual args).1.formal.map Flag.shape = formal.map Flag.shape
  | [], _, _ => rfl
  | s :: rest, formal, actual => by
    rw [parseLoop]
    cases decode formal s with
    | stopPos => rfl
    | term => rfl
    | badSyntax => rfl
    | undef => rfl
    | setVal name v =>
      dsimp only
      cases hs : setFnOf formal name v with
      | none => rfl
      | some w => rw [parseLoop_shape rest _ _, updateValue_shape]
    | needsArg name =>
      dsimp only
      cases rest with
      | nil => rfl
      | cons v rest2 =>
        dsimp only
        cases hs : setFnOf formal name v with
        | none => rfl
        | some w => rw [parseLoop_shape rest2 _ _, updateValue_shape]

theorem parseLoop_actual_mono : ∀ (args : List String) (formal : List Flag)
    (actual : List String), actual ⊆ (parseLoop formal actual args).1.actual
  | [], _, _ => fun _ h => h
  | s :: rest, formal, actual => by
    rw [parseLoop]
    cases decode formal s with
    | stopPos => exact fun _ h => h
    | term => exact fun _ h => h
    | badSyntax => exact fun _ h => h
    | undef => exact fun _ h => h
    | setVal name v =>
      dsimp only
      cases hs : setFnOf formal name v with
      | none => exact fun _ h => h
      | some w =>
        exact fun a ha =>
          parseLoop_actual_mono rest _ _ (mem_addName.mpr (Or.inr ha))
    | needsArg name =>
      dsimp only
      cases rest with
      | nil => exact fun _ h => h
      | cons v rest2 =>
        dsimp only
        cases hs : setFnOf formal name v with
        | none => exact fun _ h => h
        | some w =>
          exact fun a ha =>
            parseLoop_actual_mono rest2 _ _ (mem_addName.mpr (Or.inr ha))

/-- A flag whose name the pass did not record as set keeps its entry
unchanged: values are only ever written together with the name being added to
the actual-set. -/
theorem parseLoop_untouched : ∀ (args : List String) (formal : List Flag)
    (actual : List String) {n : String},
    n ∉ (parseLoop formal actual args).1.actual →
    lookupFlag (parseLoop formal actual args).1.formal n = lookupFlag formal n
  | [], _, _, _ => fun _ => rfl
  | s :: rest, formal, actual, n => by
    rw [parseLoop]
    cases decode formal s with
    | stopPos => exact fun _ => rfl
    | term => exact fun _ => rfl
    | badSyntax => exact fun _ => rfl
    | undef => exact fun _ => rfl
    | setVal name v =>
      dsimp only
      cases hs : setFnOf formal name v with
      | none => exact fun _ => rfl
      | some w =>
        intro hn
        have hsub := parseLoop_actual_mono rest (updateValue formal name w) (addName name actual)
        have hn' : n ∉ addName name actual := fun h => hn (hsub h)
        have hne : name ≠ n := fun h => hn' (mem_addName.mpr (Or.inl h.symm))
        rw [parseLoop_untouched rest _ _ hn, lookup_updateValue_ne formal hne w]
    | needsArg name =>
      dsimp only
      cases rest with
      | nil => exact fun _ => rfl
      | cons v rest2 =>
        dsimp only
        cases hs : setFnOf formal name v with
        | none => exact fun _ => rfl
        | some w =>
          intro hn
          have hsub := parseLoop_actual_mono rest2 (updateValue formal name w) (addName name actual)
          have hn' : n ∉ addName name actual := fun h => hn (hsub h)
          have hne : name ≠ n := fun h => hn' (mem_addName.mpr (Or.inl h.symm))
          rw [parseLoop_untouched rest2 _ _ hn, lookup_updateValue_ne formal hne w]

theorem lookupFlag_mem {l : List Flag} {n : String} {f : Flag}
    (h : lookupFlag l n = some f) : f ∈ l ∧ f.name = n := by
  induction l with
  | nil => cases h
  | cons g gs ih =>
    simp only [lookupFlag] at h
    by_cases hg : g.name = n
    · rw [if_pos hg] at h
      cases h
      exact ⟨List.mem_cons_self _ _, hg⟩
    · rw [if_neg hg] at h
      obtain ⟨hm, hn⟩ := ih h
      exact ⟨List.mem_cons_of_mem _ hm, hn⟩

theorem lookupFlag_of_mem {l : List Flag} {n : String}
    (h : n ∈ l.map Flag.name) : ∃ f, lookupFlag l n = some f := by
  induction l with
  | nil => simp at h
  | cons g gs ih =>
    simp only [List.map_cons, List.mem_cons] at h
    by_cases hg : g.name = n
    · exact ⟨g, by simp [lookupFlag, hg]⟩
    · rcases h with h | h
      · exact absurd h.symm hg
      · obtain ⟨f, hf⟩ := ih h
        exact ⟨f, by simp [lookupFlag, hg, hf]⟩

/-! ## The synthesized argument list as (name, value) pairs -/

/-- The (name, value) pairs behind the synthesized environment arguments. -/
def envPairsOf (environ : String → Option String) (pfx : String) : List Flag → List (String × String)
  | [] => []
  | f :: fs =>
    (match envLookup environ (pfx ++ f.name) with
     | some v => [(f.name, envValue f v)]
     | none => []) ++ envPairsOf environ pfx fs

theorem envArgsOf_eq_map (environ : String → Option String) (pfx : String) (l : List Flag) :
    envArgsOf environ pfx l = (envPairsOf environ pfx l).map mkItem := by
  induction l with
  | nil => rfl
  | cons f fs ih =>
    simp only [envArgsOf, envPairsOf, List.map_append, ih, contrib]
    cases envLookup environ (pfx ++ f.name) <;> simp [mkItem]

theorem envPairsOf_fst_sublist (environ : String → Option String) (pfx : String)
    (l : List Flag) :
    ((envPairsOf environ pfx l).map Prod.fst).Sublist (l.map Flag.name) := by
  induction l with
  | nil => simp [envPairsOf]
  | cons f fs ih =>
    simp only [envPairsOf, List.map_append, List.map_cons]
    cases envLookup environ (pfx ++ f.name) with
    | none => simpa using ih.cons f.name
    | some v => simpa using ih.cons₂ f.name

theorem mem_envPairsOf_of (environ : String → Option String) (pfx : String)
    {l : List Flag} {f : Flag} (hf : f ∈ l) {v : String}
    (hv : envLookup environ (pfx ++ f.name) = some v) :
    (f.name, envValue f v) ∈ envPairsOf environ pfx l := by
  induction l with
  | nil => cases hf
  | cons g gs ih =>
    rcases List.mem_cons.mp hf with rfl | hf'
    · simp [envPairsOf, hv]
    · simp only [envPairsOf, List.mem_append]
      exact Or.inr (ih hf')

theorem mem_envPairsOf {environ : String → Option String} {pfx : String}
    {l : List Flag} {p : String × String} (hp : p ∈ envPairsOf environ pfx l) :
    ∃ f ∈ l, ∃ v, envLookup environ (pfx ++ f.name) = some v ∧ p = (f.name, envValue f v) := by
  induction l with
  | nil => cases hp
  | cons g gs ih =>
    simp only [envPairsOf, List.mem_append] at hp
    rcases hp with hp | hp
    · cases hv : envLookup environ (pfx ++ g.name) with
      | none => rw [hv] at hp; cases hp
      | some v =>
        rw [hv] at hp
        simp only [List.mem_singleton] at hp
        exact ⟨g, List.mem_cons_self _ _, v, hv, hp⟩
    · obtain ⟨f, hfl, hrest⟩ := ih hp
      exact ⟨f, List.mem_cons_of_mem _ hfl, hrest⟩

theorem mem_unsetFlags {fs : FlagSet} {f : Flag} :
    f ∈ unsetFlags fs ↔ f ∈ fs.formal ∧ f.name ∉ fs.actual := by
  simp [unsetFlags]

/-! ## Running the second pass over the synthesized list -/

/-- A legal tail of the synthesized list: empty, or the `--` separator
followed by the first pass's positional arguments. -/
def TailOk (t : List String) : Prop := t = [] ∨ ∃ post, t = "--" :: post

theorem parseLoop_tail (formal : List Flag) (actual : List String) {t : List String}
    (ht : TailOk t) : parseLoop formal actual t = (⟨formal, actual, t.tail⟩, true) := by
  rcases ht with rfl | ⟨post, rfl⟩
  · rfl
  · exact parseLoop_dashdash formal actual post

/-- Flags named by no item of the second pass are untouched by it. -/
theorem items_preserve {ps : List (String × String)}
    (hgood : ∀ p ∈ ps, GoodName p.1) {n : String} (hn : ∀ p ∈ ps, p.1 ≠ n)
    {t : List String} (ht : TailOk t) :
    ∀ (formal : List Flag) (actual : List String),
    lookupFlag (parseLoop formal actual (ps.map mkItem ++ t)).1.formal n = lookupFlag formal n := by
  induction ps with
  | nil =>
    intro formal actual
    rw [List.map_nil, List.nil_append, parseLoop_tail formal actual ht]
  | cons q qs ih =>
    intro formal actual
    obtain ⟨m, v⟩ := q
    have hgm : GoodName m := hgood _ (List.mem_cons_self _ _)
    rw [List.map_cons, List.cons_append, parseLoop_synth formal actual m v _ hgm]
    cases hs : setFnOf formal m v with
    | none => rfl
    | some w =>
      dsimp only
      rw [ih (fun p hp => hgood p (List.mem_cons_of_mem _ hp))
          (fun p hp => hn p (List.mem_cons_of_mem _ hp)) _ _]
      exact lookup_updateValue_ne formal (hn (m, v) (List.mem_cons_self _ _)) w

/-- On a successful second pass, each item's value is what its flag's
`Value.Set` produced from it. -/
theorem items_apply {ps : List (String × String)}
    (hgood : ∀ p ∈ ps, GoodName p.1) (hnd : (ps.map Prod.fst).Nodup)
    {n v : String} (hmem : (n, v) ∈ ps) {t : List String} (ht : TailOk t) :
    ∀ (formal : List Flag) (actual : List String),
    (parseLoop formal actual (ps.map mkItem ++ t)).2 = true →
    ∃ f w, lookupFlag formal n = some f ∧ f.setFn v = some w ∧
      lookupFlag (parseLoop formal actual (ps.map mkItem ++ t)).1.formal n =
        some { f with value := w } := by
  induction ps with
  | nil => cases hmem
  | cons q qs ih =>
    intro formal actual hok
    obtain ⟨m, u⟩ := q
    have hgm : GoodName m := hgood _ (List.mem_cons_self _ _)
    rw [List.map_cons, List.cons_append, parseLoop_synth formal actual m u _ hgm] at hok ⊢
    rcases List.mem_cons.mp hmem with heq | hmem'
    · cases heq
      cases hs : setFnOf formal n v with
      | none =>
        rw [hs] at hok
        simp at hok
      | some w =>
        rw [hs] at hok
        dsimp only at hok ⊢
        unfold setFnOf at hs
        cases hl : lookupFlag formal n with
        | none => rw [hl] at hs; cases hs
        | some f =>
          rw [hl] at hs
          refine ⟨f, w, rfl, hs, ?_⟩
          have hnqs : ∀ p ∈ qs, p.1 ≠ n := by
            intro p hp hpn
            have : n ∈ qs.map Prod.fst := hpn ▸ List.mem_map_of_mem Prod.fst hp
            simp only [List.map_cons, List.nodup_cons] at hnd
            exact hnd.1 this
          rw [items_preserve (fun p hp => hgood p (List.mem_cons_of_mem _ hp)) hnqs ht _ _]
          exact lookup_updateValue_eq formal hl w
    · have hmn : m ≠ n := by
        intro h
        have : n ∈ qs.map Prod.fst := List.mem_map_of_mem Prod.fst hmem'
        simp only [List.map_cons, List.nodup_cons] at hnd
        exact hnd.1 (h ▸ this)
      cases hs : setFnOf formal m u with
      | none =>
        rw [hs] at hok
        simp at hok
      | some w =>
        rw [hs] at hok
        dsimp only at hok ⊢
        obtain ⟨f, w', hf, hw', hval⟩ :=
          ih (fun p hp => hgood p (List.mem_cons_of_mem _ hp))
            (by simp only [List.map_cons, List.nodup_cons] at hnd; exact hnd.2)
            hmem' _ _ hok
        rw [lookup_updateValue_ne formal hmn w] at hf
        exact ⟨f, w', hf, hw', hval⟩

theorem shape_eq_parts {f g : Flag} (h : Flag.shape f = Flag.shape g) :
    f.name = g.name ∧ f.defValue = g.defValue ∧ f.isBool = g.isBool ∧ f.setFn = g.setFn :=
  ⟨congrArg (fun p => p.1) h, congrArg (fun p => p.2.1) h,
   congrArg (fun p => p.2.2.1) h, congrArg (fun p => p.2.2.2) h⟩

theorem map_name_eq_of_shape {l₁ l₂ : List Flag}
    (h : l₁.map Flag.shape = l₂.map Flag.shape) :
    l₁.map Flag.name = l₂.map Flag.name := by
  have h' := congrArg (List.map Prod.fst) h
  rw [List.map_map, List.map_map] at h'
  exact h'

theorem lookup_shape_transfer {l₁ l₂ : List Flag}
    (h : l₁.map Flag.shape = l₂.map Flag.shape) {n : String} {f : Flag}
    (hf : lookupFlag l₁ n = some f) :
    ∃ g, lookupFlag l₂ n = some g ∧ f.name = g.name ∧ f.defValue = g.defValue ∧
      f.isBool = g.isBool ∧ f.setFn = g.setFn := by
  have hs := lookup_shape_eq h n
  rw [hf] at hs
  cases hg : lookupFlag l₂ n with
  | none => rw [hg] at hs; simp at hs
  | some g =>
    rw [hg] at hs
    simp only [Option.map_some', Option.some.injEq] at hs
    exact ⟨g, rfl, shape_eq_parts hs⟩

/-- An item whose value its flag's parser rejects leaves that flag unchanged:
the second pass stops at it (or earlier) without ever writing to it. -/
theorem items_failpreserve {ps : List (String × String)}
    (hgood : ∀ p ∈ ps, GoodName p.1) (hnd : (ps.map Prod.fst).Nodup)
    {n v : String} (hmem : (n, v) ∈ ps) {t : List String} :
    ∀ (formal : List Flag) (actual : List String),
    (∀ f, lookupFlag formal n = some f → f.setFn v = none) →
    lookupFlag (parseLoop formal actual (ps.map mkItem ++ t)).1.formal n = lookupFlag formal n := by
  induction ps with
  | nil => cases hmem
  | cons q qs ih =>
    intro formal actual hfail
    obtain ⟨m, u⟩ := q
    have hgm : GoodName m := hgood _ (List.mem_cons_self _ _)
    rw [List.map_cons, List.cons_append, parseLoop_synth formal actual m u _ hgm]
    rcases List.mem_cons.mp hmem with heq | hmem'
    · cases heq
      cases hs : setFnOf formal n v with
      | none => rfl
      | some w =>
        exfalso
        unfold setFnOf at hs
        cases hl : lookupFlag formal n with
        | none => rw [hl] at hs; cases hs
        | some f =>
          rw [hl] at hs
          dsimp only at hs
          rw [hfail f hl] at hs
          cases hs
    · have hmn : m ≠ n := by
        intro h
        have hq : n ∈ qs.map Prod.fst := List.mem_map_of_mem Prod.fst hmem'
        simp only [List.map_cons, List.nodup_cons] at hnd
        exact hnd.1 (h ▸ hq)
      cases hs : setFnOf formal m u with
      | none => rfl
      | some w =>
        dsimp only
        rw [ih (fun p hp => hgood p (List.mem_cons_of_mem _ hp))
            (by simp only [List.map_cons, List.nodup_cons] at hnd; exact hnd.2) hmem' _ _
            (fun f hf => hfail f (by rwa [lookup_updateValue_ne formal hmn w] at hf))]
        exact lookup_updateValue_ne formal hmn w

/-- A malformed item forces the second pass (whatever its tail) to fail. -/
theorem items_fail {ps : List (String × String)}
    (hgood : ∀ p ∈ ps, GoodName p.1) {n v : String} (hmem : (n, v) ∈ ps)
    (t : List String) :
    ∀ (formal : List Flag) (actual : List String),
    (∀ f, lookupFlag formal n = some f → f.setFn v = none) →
    (parseLoop formal actual (ps.map mkItem ++ t)).2 = false := by
  induction ps with
  | nil => cases hmem
  | cons q qs ih =>
    intro formal actual hfail
    obtain ⟨m, u⟩ := q
    have hgm : GoodName m := hgood _ (List.mem_cons_self _ _)
    rw [List.map_cons, List.cons_append, parseLoop_synth formal actual m u _ hgm]
    rcases List.mem_cons.mp hmem with heq | hmem'
    · cases heq
      cases hs : setFnOf formal n v with
      | none => rfl
      | some w =>
        exfalso
        unfold setFnOf at hs
        cases hl : lookupFlag formal n with
        | none => rw [hl] at hs; cases hs
        | some f =>
          rw [hl] at hs
          dsimp only at hs
          rw [hfail f hl] at hs
          cases hs
    · cases hs : setFnOf formal m u with
      | none => rfl
      | some w =>
        dsimp only
        apply ih (fun p hp => hgood p (List.mem_cons_of_mem _ hp)) hmem' _ _
        intro f hf
        have hsh := lookup_shape_eq (updateValue_shape formal m w) n
        rw [hf] at hsh
        cases hl : lookupFlag formal n with
        | none => rw [hl] at hsh; simp at hsh
        | some g =>
          rw [hl] at hsh
          simp only [Option.map_some', Option.some.injEq] at hsh
          rw [(shape_eq_parts hsh).2.2.2]
          exact hfail g hl

/-- On success, the second pass's remaining positional arguments are exactly
the ones re-appended after the `--` separator. -/
theorem items_args {ps : List (String × String)}
    (hgood : ∀ p ∈ ps, GoodName p.1) {t : List String} (ht : TailOk t) :
    ∀ (formal : List Flag) (actual : List String),
    (parseLoop formal actual (ps.map mkItem ++ t)).2 = true →
    (parseLoop formal actual (ps.map mkItem ++ t)).1.args = t.tail := by
  induction ps with
  | nil =>
    intro formal actual _
    rw [List.map_nil, List.nil_append, parseLoop_tail formal actual ht]
  | cons q qs ih =>
    intro formal actual hok
    obtain ⟨m, u⟩ := q
    have hgm : GoodName m := hgood _ (List.mem_cons_self _ _)
    rw [List.map_cons, List.cons_append, parseLoop_synth formal actual m u _ hgm] at hok ⊢
    cases hs : setFnOf formal m u with
    | none =>
      rw [hs] at hok
      simp at hok
    | some w =>
      rw [hs] at hok
      dsimp only at hok ⊢
      exact ih (fun p hp => hgood p (List.mem_cons_of_mem _ hp)) _ _ hok

/-- Unfolding of `Parse` into its three outcomes. -/
theorem Parse_def (environ : String → Option String) (o : option) :
    Parse environ o =
      if (FlagSet.parse o.set o.args).2 = false then FlagSet.parse o.set o.args
      else if envArgs environ o.pfx (FlagSet.parse o.set o.args).1 = [] then
        ((FlagSet.parse o.set o.args).1, true)
      else
        FlagSet.parse (FlagSet.parse o.set o.args).1
          (if (FlagSet.parse o.set o.args).1.args = [] then
            envArgs environ o.pfx (FlagSet.parse o.set o.args).1
           else
            envArgs environ o.pfx (FlagSet.parse o.set o.args).1 ++
              "--" :: (FlagSet.parse o.set o.args).1.args) := rfl

/-! ## Bridges between the two passes -/

theorem envPairs_good {fs : FlagSet} (hg : ∀ f ∈ fs.formal, GoodName f.name)
    (environ : String → Option String) (pfx : String) :
    ∀ p ∈ envPairsOf environ pfx (unsetFlags fs), GoodName p.1 := by
  intro p hp
  obtain ⟨f, hf, v, hv, hpv⟩ := mem_envPairsOf hp
  rw [hpv]
  exact hg f (mem_unsetFlags.mp hf).1

theorem envPairs_nodup {fs : FlagSet} (hnd : (fs.formal.map Flag.name).Nodup)
    (environ : String → Option String) (pfx : String) :
    ((envPairsOf environ pfx (unsetFlags fs)).map Prod.fst).Nodup := by
  have h1 := envPairsOf_fst_sublist environ pfx (unsetFlags fs)
  have h2 : ((unsetFlags fs).map Flag.name).Sublist (fs.formal.map Flag.name) :=
    (List.filter_sublist _).map Flag.name
  exact hnd.sublist (h1.trans h2)

/-- When the second pass runs, `Parse` is that pass over the synthesized
pair items followed by a legal tail whose tail is the first pass's
positional arguments. -/
theorem Parse_second (environ : String → Option String) (o : option)
    (h1 : (FlagSet.parse o.set o.args).2 = true)
    (hne : envArgs environ o.pfx (FlagSet.parse o.set o.args).1 ≠ []) :
    ∃ t, TailOk t ∧ t.tail = (FlagSet.parse o.set o.args).1.args ∧
      Parse environ o = parseLoop (FlagSet.parse o.set o.args).1.formal
        (FlagSet.parse o.set o.args).1.actual
        ((envPairsOf environ o.pfx (unsetFlags (FlagSet.parse o.set o.args).1)).map mkItem
          ++ t) := by
  rw [Parse_def, if_neg (by rw [h1]; simp), if_neg hne]
  by_cases ha : (FlagSet.parse o.set o.args).1.args = []
  · refine ⟨[], Or.inl rfl, ha.symm, ?_⟩
    rw [if_pos ha]
    show parseLoop _ _ _ = _
    rw [envArgs, envArgsOf_eq_map, List.append_nil]
  · refine ⟨"--" :: (FlagSet.parse o.set o.args).1.args, Or.inr ⟨_, rfl⟩, rfl, ?_⟩
    rw [if_neg ha]
    show parseLoop _ _ _ = _
    rw [envArgs, envArgsOf_eq_map]

theorem firstPass_shape (o : option) :
    (FlagSet.parse o.set o.args).1.formal.map Flag.shape = o.set.formal.map Flag.shape :=
  parseLoop_shape o.args o.set.formal o.set.actual

theorem firstPass_good (o : option) (hwf : WF o.set) :
    ∀ f ∈ (FlagSet.parse o.set o.args).1.formal, GoodName f.name := by
  intro f hf
  have hmem : f.name ∈ o.set.formal.map Flag.name :=
    map_name_eq_of_shape (firstPass_shape o) ▸ List.mem_map_of_mem Flag.name hf
  obtain ⟨g, hg, hgn⟩ := List.mem_map.mp hmem
  exact hgn ▸ hwf.2 g hg

theorem envValue_congr {f g : Flag} (h : f.isBool = g.isBool) (v : String) :
    envValue f v = envValue g v := by
  unfold envValue
  rw [h]

/-! ## The claims -/

/-- Claim C1: a flag set from the argument list is not in the unset set (so
no environment lookup is made on its behalf), and its final value after
`Parse` is exactly its value after the first, command-line pass — even when
a matching environment variable is present (`environ` is arbitrary here). -/
theorem c1_cmdline_wins (environ : String → Option String) (o : option) (n : String)
    (hwf : WF o.set)
    (h1 : (FlagSet.parse o.set o.args).2 = true)
    (hn : n ∈ (FlagSet.parse o.set o.args).1.actual) :
    n ∉ (unsetFlags (FlagSet.parse o.set o.args).1).map Flag.name ∧
    valueOf (Parse environ o).1 n = valueOf (FlagSet.parse o.set o.args).1 n := by
  have hg3 := firstPass_good o hwf
  constructor
  · intro hmem
    obtain ⟨f, hf, hfn⟩ := List.mem_map.mp hmem
    exact (mem_unsetFlags.mp hf).2 (hfn ▸ hn)
  · by_cases hargs : envArgs environ o.pfx (FlagSet.parse o.set o.args).1 = []
    · rw [Parse_def, if_neg (by rw [h1]; simp), if_pos hargs]
    · obtain ⟨t, ht, htt, hP⟩ := Parse_second environ o h1 hargs
      have hnn : ∀ p ∈ envPairsOf environ o.pfx (unsetFlags (FlagSet.parse o.set o.args).1),
          p.1 ≠ n := by
        intro p hp hpn
        obtain ⟨f, hf, v, hv, rfl⟩ := mem_envPairsOf hp
        have hfn : f.name = n := hpn
        exact (mem_unsetFlags.mp hf).2 (hfn ▸ hn)
      rw [hP]
      unfold valueOf
      rw [items_preserve (envPairs_good hg3 environ o.pfx) hnn ht _ _]

def envC1 : String → Option String := fun k => if k = "X" then some "11" else none

def oC1 : option := ⟨⟨[intFlag "x" 0], [], []⟩, ["--x=0"], ""⟩

theorem c1_witness :
    "x" ∉ (unsetFlags (FlagSet.parse oC1.set oC1.args).1).map Flag.name ∧
    valueOf (Parse envC1 oC1).1 "x" = valueOf (FlagSet.parse oC1.set oC1.args).1 "x" :=
  c1_cmdline_wins envC1 oC1 "x" ⟨by decide, by decide⟩ rfl (by decide)

/-- Claim C2: a registered flag not set by the first pass gets, when `Parse`
succeeds, the environment value (boolean-normalized when applicable) run
through its own registered parser if the mapped environment variable exists,
and keeps its registered default if it does not. -/
theorem c2_env_fallback (environ : String → Option String) (o : option) (n : String)
    (hwf : WF o.set) (hfresh : Fresh o.set)
    (h1 : (FlagSet.parse o.set o.args).2 = true)
    (hreg : n ∈ o.set.formal.map Flag.name)
    (hn : n ∉ (FlagSet.parse o.set o.args).1.actual) :
    (∀ v, envLookup environ (o.pfx ++ n) = some v → (Parse environ o).2 = true →
      ∃ g w, lookupFlag o.set.formal n = some g ∧ g.setFn (envValue g v) = some w ∧
        valueOf (Parse environ o).1 n = some w) ∧
    (envLookup environ (o.pfx ++ n) = none →
      ∃ g, lookupFlag o.set.formal n = some g ∧
        valueOf (Parse environ o).1 n = some g.defValue) := by
  have hg3 := firstPass_good o hwf
  have hshape := firstPass_shape o
  have hnames := map_name_eq_of_shape hshape
  have hreg1 : n ∈ (FlagSet.parse o.set o.args).1.formal.map Flag.name := hnames ▸ hreg
  obtain ⟨f1, hf1⟩ := lookupFlag_of_mem hreg1
  obtain ⟨hf1mem, hf1name⟩ := lookupFlag_mem hf1
  constructor
  · intro v hv hok
    have hf1unset : f1 ∈ unsetFlags (FlagSet.parse o.set o.args).1 :=
      mem_unsetFlags.mpr ⟨hf1mem, hf1name ▸ hn⟩
    have hpair : (n, envValue f1 v) ∈
        envPairsOf environ o.pfx (unsetFlags (FlagSet.parse o.set o.args).1) := by
      have := mem_envPairsOf_of environ o.pfx hf1unset (by rw [hf1name]; exact hv)
      rwa [hf1name] at this
    have hargsne : envArgs environ o.pfx (FlagSet.parse o.set o.args).1 ≠ [] := by
      rw [envArgs, envArgsOf_eq_map]
      intro hemp
      rw [List.map_eq_nil_iff] at hemp
      rw [hemp] at hpair
      cases hpair
    obtain ⟨t, ht, htt, hP⟩ := Parse_second environ o h1 hargsne
    rw [hP] at hok ⊢
    obtain ⟨f, w, hf, hw, hval⟩ := items_apply (envPairs_good hg3 environ o.pfx)
      (envPairs_nodup (hnames ▸ hwf.1) environ o.pfx) hpair ht _ _ hok
    have hff1 : f1 = f := Option.some.inj (hf1.symm.trans hf)
    cases hff1
    obtain ⟨g, hg, hgname, hgdef, hgbool, hgset⟩ := lookup_shape_transfer hshape hf1
    refine ⟨g, w, hg, ?_, ?_⟩
    · rw [← hgset, ← envValue_congr hgbool v]
      exact hw
    · unfold valueOf
      rw [hval]
      rfl
  · intro hv
    have hfirst : lookupFlag (FlagSet.parse o.set o.args).1.formal n =
        lookupFlag o.set.formal n :=
      parseLoop_untouched o.args o.set.formal o.set.actual hn
    have hg0 : lookupFlag o.set.formal n = some f1 := hfirst.symm.trans hf1
    have hdef : f1.value = f1.defValue := hfresh.2 f1 (lookupFlag_mem hg0).1
    refine ⟨f1, hg0, ?_⟩
    by_cases hargs : envArgs environ o.pfx (FlagSet.parse o.set o.args).1 = []
    · rw [Parse_def, if_neg (by rw [h1]; simp), if_pos hargs]
      unfold valueOf
      rw [hf1, Option.map_some', hdef]
    · obtain ⟨t, ht, htt, hP⟩ := Parse_second environ o h1 hargs
      have hnn : ∀ p ∈ envPairsOf environ o.pfx (unsetFlags (FlagSet.parse o.set o.args).1),
          p.1 ≠ n := by
        intro p hp hpn
        obtain ⟨f, hf, v', hv', rfl⟩ := mem_envPairsOf hp
        have hfn : f.name = n := hpn
        rw [hfn] at hv'
        rw [hv'] at hv
        cases hv
      rw [hP]
      unfold valueOf
      rw [items_preserve (envPairs_good hg3 environ o.pfx) hnn ht _ _, hf1,
        Option.map_some', hdef]

def envC2 : String → Option String := fun k => if k = "ENVFLAG_SIMPLE" then some "42" else none

def oC2 : option := ⟨⟨[intFlag "envflag_simple" 0], [], []⟩, [], ""⟩

theorem c2_witness :
    ∃ g w, lookupFlag oC2.set.formal "envflag_simple" = some g ∧
      g.setFn (envValue g "42") = some w ∧
      valueOf (Parse envC2 oC2).1 "envflag_simple" = some w :=
  (c2_env_fallback envC2 oC2 "envflag_simple" ⟨by decide, by decide⟩ ⟨rfl, by decide⟩ rfl
    (by decide) (by decide)).1 "42" rfl rfl

def envC3 : String → Option String := fun k => if k = "BOOL" then some "nope" else none

def oC3 : option := ⟨⟨[boolFlag "bool" false], [], []⟩, [], ""⟩

/-- Claim C3: a consulted boolean-style environment value is normalized
case-insensitively — `true`/`yes`/`y`/`1` to the literal `"true"`,
`false`/`no`/`n`/`0` to the literal `"false"` — every other string is passed
through unchanged (so `"nope"` reaches the boolean type parser, which
rejects it: `Parse` fails on the concrete `BOOL=nope` scenario), and
non-boolean flags receive the value verbatim with no normalization. -/
theorem c3_bool_normalization :
    (∀ v : String, (toLowerStr v = "true" ∨ toLowerStr v = "yes" ∨ toLowerStr v = "y" ∨
        toLowerStr v = "1") → normalizeBool v = "true") ∧
    (∀ v : String, (toLowerStr v = "false" ∨ toLowerStr v = "no" ∨ toLowerStr v = "n" ∨
        toLowerStr v = "0") → normalizeBool v = "false") ∧
    (∀ v : String,
      ¬ (toLowerStr v = "true" ∨ toLowerStr v = "yes" ∨ toLowerStr v = "y" ∨
        toLowerStr v = "1") →
      ¬ (toLowerStr v = "false" ∨ toLowerStr v = "no" ∨ toLowerStr v = "n" ∨
        toLowerStr v = "0") →
      normalizeBool v = v) ∧
    (∀ (f : Flag) (v : String), f.isBool = true → envValue f v = normalizeBool v) ∧
    (∀ (f : Flag) (v : String), f.isBool = false → envValue f v = v) ∧
    goParseBool "nope" = none ∧
    (Parse envC3 oC3).2 = false := by
  refine ⟨?_, ?_, ?_, ?_, ?_, rfl, rfl⟩
  · intro v h
    unfold normalizeBool
    rw [if_pos h]
  · intro v h
    unfold normalizeBool
    rw [if_neg ?_, if_pos h]
    rcases h with h | h | h | h <;> rw [h] <;> decide
  · intro v h1 h2
    unfold normalizeBool
    rw [if_neg h1, if_neg h2]
  · intro f v h
    unfold envValue
    rw [h]
    rfl
  · intro f v h
    unfold envValue
    rw [h]
    rfl

theorem c3_witness :
    normalizeBool "TRUE" = "true" ∧ normalizeBool "No" = "false" ∧
    normalizeBool "nope" = "nope" :=
  ⟨c3_bool_normalization.1 "TRUE" (by decide),
   c3_bool_normalization.2.1 "No" (by decide),
   c3_bool_normalization.2.2.1 "nope" (by decide) (by decide)⟩

def envC3x : String → Option String := fun k => if k = "B" then some "T" else none

def oC3x : option := ⟨⟨[boolFlag "b" false], [], []⟩, [], ""⟩

/-- The string `T` is not one of the eight normalization tokens, so it is
passed through unnormalized — yet the underlying boolean parser accepts it,
so `Parse` succeeds instead of failing: not every unnormalized boolean
environment value causes a ParseError. -/
theorem c3_counterexample :
    normalizeBool "T" = "T" ∧ goParseBool "T" = some true ∧
    (Parse envC3x oC3x).2 = true ∧ valueOf (Parse envC3x oC3x).1 "b" = some "true" :=
  ⟨by decide, by decide, rfl, rfl⟩

theorem data_mk (l : List Char) : (String.mk l).data = l := rfl

theorem toNat_ofNat_valid {n : Nat} (h : n.isValidChar) : (Char.ofNat n).toNat = n := by
  unfold Char.ofNat
  rw [dif_pos h]
  rfl

theorem char_step (c : Char) :
    (fun x => if x = '-' then '_' else x)
      ((fun x => if x = '.' then '_' else x) c.toUpper) =
    (if c = '.' ∨ c = '-' then '_' else c.toUpper) := by
  by_cases h1 : c = '.'
  · subst h1
    decide
  by_cases h2 : c = '-'
  · subst h2
    decide
  rw [if_neg (by simp [h1, h2])]
  have hu : c.toUpper ≠ '.' ∧ c.toUpper ≠ '-' := by
    unfold Char.toUpper
    dsimp only
    split
    · rename_i h
      obtain ⟨ha, hb⟩ := h
      have hv : Nat.isValidChar (c.toNat - 32) := Or.inl (by omega)
      have ht : (Char.ofNat (c.toNat - 32)).toNat = c.toNat - 32 := toNat_ofNat_valid hv
      constructor
      · intro heq
        rw [heq] at ht
        have hx : (46 : Nat) = c.toNat - 32 := ht
        omega
      · intro heq
        rw [heq] at ht
        have hx : (45 : Nat) = c.toNat - 32 := ht
        omega
    · exact ⟨h1, h2⟩
  simp [hu.1, hu.2]

/-- The spec's bit-exact environment naming rule, stated character by
character: upper-case the concatenation, with `.` and `-` becoming `_`. -/
def specEnvKey (s : String) : String :=
  String.mk (s.data.map (fun c => if c = '.' ∨ c = '-' then '_' else c.toUpper))

/-- Claim C4: the looked-up key is exactly `UPPER(prefix + flagName)` with
every `.` and `-` replaced by `_`, and the synthesized contribution of a
flag depends on the environment only through that single key (so no other
key is ever consulted on the flag's behalf). -/
theorem c4_env_key (p n : String) (environ₁ environ₂ : String → Option String) (f : Flag) :
    envKey (p ++ n) = specEnvKey (p ++ n) ∧
    (environ₁ (envKey (p ++ f.name)) = environ₂ (envKey (p ++ f.name)) →
      contrib environ₁ p f = contrib environ₂ p f) := by
  constructor
  · unfold envKey specEnvKey replaceChar toUpperStr
    simp only [data_mk, List.map_map]
    exact congrArg String.mk (List.map_congr_left fun c _ => char_step c)
  · intro h
    unfold contrib envLookup
    rw [h]

def envC4a : String → Option String := fun k => if k = "A_B" then some "1" else none

def envC4b : String → Option String := fun k => if k = "A_B" then some "1" else some "2"

def fC4 : Flag := stringFlag "a.b" "d"

theorem c4_witness :
    envKey ("" ++ "a.b") = specEnvKey ("" ++ "a.b") ∧
    contrib envC4a "" fC4 = contrib envC4b "" fC4 :=
  ⟨(c4_env_key "" "a.b" envC4a envC4b fC4).1,
   (c4_env_key "" "a.b" envC4a envC4b fC4).2 (by decide)⟩

/-- Claim C6: if the first pass over the supplied argument list fails,
`Parse` returns exactly that failing first-pass state; the result is
independent of the environment (no lookup can influence it) and no flag
receives an environment-sourced value. -/
theorem c6_first_pass_failure (o : option) (environ₁ environ₂ : String → Option String)
    (h : (FlagSet.parse o.set o.args).2 = false) :
    Parse environ₁ o = ((FlagSet.parse o.set o.args).1, false) ∧
    Parse environ₁ o = Parse environ₂ o := by
  have h1 : Parse environ₁ o = FlagSet.parse o.set o.args := by
    rw [Parse_def, if_pos h]
  have h2 : Parse environ₂ o = FlagSet.parse o.set o.args := by
    rw [Parse_def, if_pos h]
  refine ⟨?_, h1.trans h2.symm⟩
  rw [← h, h1]

def oC6 : option := ⟨⟨[intFlag "x" 0], [], []⟩, ["--nope=1"], ""⟩

def envC6a : String → Option String := fun _ => some "7"

def envC6b : String → Option String := fun _ => none

theorem c6_witness :
    Parse envC6a oC6 = ((FlagSet.parse oC6.set oC6.args).1, false) ∧
    Parse envC6a oC6 = Parse envC6b oC6 :=
  c6_first_pass_failure oC6 envC6a envC6b rfl

def envC10 : String → Option String := fun k => if k = "A_B" then some "x" else none

def oC10 : option := ⟨⟨[stringFlag "a.b" "d1", stringFlag "a-b" "d2"], [], []⟩, [], ""⟩

/-- Claim C10: the name-to-key mapping is not injective — the distinct names
`a.b` and `a-b` map to the same key `A_B` — and one environment variable can
supply the value of several unset flags in a single successful `Parse`. -/
theorem c10_key_not_injective :
    envKey "a.b" = envKey "a-b" ∧ "a.b" ≠ "a-b" ∧
    (Parse envC10 oC10).2 = true ∧
    valueOf (Parse envC10 oC10).1 "a.b" = some "x" ∧
    valueOf (Parse envC10 oC10).1 "a-b" = some "x" :=
  ⟨by decide, by decide, rfl, rfl, rfl⟩

/-- Claim C5: when the second (environment) pass fails, `Parse` reports the
failure, every flag set by the first pass keeps its first-pass value (no
rollback), and an unset flag whose environment value its own parser rejects
still carries its registered default afterwards. -/
theorem c5_no_rollback (environ : String → Option String) (o : option)
    (hwf : WF o.set) (hfresh : Fresh o.set)
    (h1 : (FlagSet.parse o.set o.args).2 = true)
    (h2 : (Parse environ o).2 = false) :
    (∀ n ∈ (FlagSet.parse o.set o.args).1.actual,
      valueOf (Parse environ o).1 n = valueOf (FlagSet.parse o.set o.args).1 n) ∧
    (∀ n ∈ o.set.formal.map Flag.name, n ∉ (FlagSet.parse o.set o.args).1.actual →
      ∀ v, envLookup environ (o.pfx ++ n) = some v →
      (∀ f, lookupFlag o.set.formal n = some f → f.setFn (envValue f v) = none) →
      ∃ g, lookupFlag o.set.formal n = some g ∧
        valueOf (Parse environ o).1 n = some g.defValue) := by
  have hg3 := firstPass_good o hwf
  have hnames := map_name_eq_of_shape (firstPass_shape o)
  constructor
  · intro n hn
    by_cases hargs : envArgs environ o.pfx (FlagSet.parse o.set o.args).1 = []
    · rw [Parse_def, if_neg (by rw [h1]; simp), if_pos hargs]
    · obtain ⟨t, ht, htt, hP⟩ := Parse_second environ o h1 hargs
      have hnn : ∀ p ∈ envPairsOf environ o.pfx (unsetFlags (FlagSet.parse o.set o.args).1),
          p.1 ≠ n := by
        intro p hp hpn
        obtain ⟨f, hf, v, hv, rfl⟩ := mem_envPairsOf hp
        have hfn : f.name = n := hpn
        exact (mem_unsetFlags.mp hf).2 (hfn ▸ hn)
      rw [hP]
      unfold valueOf
      rw [items_preserve (envPairs_good hg3 environ o.pfx) hnn ht _ _]
  · intro n hreg hn v hv hfail
    have hfirst := parseLoop_untouched o.args o.set.formal o.set.actual hn
    have hreg1 : n ∈ (FlagSet.parse o.set o.args).1.formal.map Flag.name := hnames ▸ hreg
    obtain ⟨f1, hf1⟩ := lookupFlag_of_mem hreg1
    have hg0 : lookupFlag o.set.formal n = some f1 := hfirst.symm.trans hf1
    have hdef : f1.value = f1.defValue := hfresh.2 f1 (lookupFlag_mem hg0).1
    obtain ⟨hf1mem, hf1name⟩ := lookupFlag_mem hf1
    have hf1unset : f1 ∈ unsetFlags (FlagSet.parse o.set o.args).1 :=
      mem_unsetFlags.mpr ⟨hf1mem, hf1name ▸ hn⟩
    have hpair : (n, envValue f1 v) ∈
        envPairsOf environ o.pfx (unsetFlags (FlagSet.parse o.set o.args).1) := by
      have := mem_envPairsOf_of environ o.pfx hf1unset (by rw [hf1name]; exact hv)
      rwa [hf1name] at this
    have hargsne : envArgs environ o.pfx (FlagSet.parse o.set o.args).1 ≠ [] := by
      rw [envArgs, envArgsOf_eq_map]
      intro hemp
      rw [List.map_eq_nil_iff] at hemp
      rw [hemp] at hpair
      cases hpair
    obtain ⟨t, ht, htt, hP⟩ := Parse_second environ o h1 hargsne
    rw [hP]
    refine ⟨f1, hg0, ?_⟩
    unfold valueOf
    rw [items_failpreserve (envPairs_good hg3 environ o.pfx)
        (envPairs_nodup (hnames ▸ hwf.1) environ o.pfx) hpair _ _ ?_, hf1,
      Option.map_some', hdef]
    intro f hf
    have heq : f1 = f := Option.some.inj (hf1.symm.trans hf)
    cases heq
    exact hfail f1 hg0

def envC5 : String → Option String :=
  fun k => if k = "ENVFLAG_INVALID_ENV" then some "invalid_int" else none

def oC5 : option := ⟨⟨[intFlag "envflag_invalid_env" (-1)], [], []⟩, [], ""⟩

theorem c5_witness :
    ∃ g, lookupFlag oC5.set.formal "envflag_invalid_env" = some g ∧
      valueOf (Parse envC5 oC5).1 "envflag_invalid_env" = some g.defValue :=
  (c5_no_rollback envC5 oC5 ⟨by decide, by decide⟩ ⟨rfl, by decide⟩ rfl rfl).2
    "envflag_invalid_env" (by decide) (by decide) "invalid_int" rfl
    (by
      intro f hf
      have heq : intFlag "envflag_invalid_env" (-1) = f :=
        Option.some.inj ((rfl : lookupFlag oC5.set.formal "envflag_invalid_env" =
          some (intFlag "envflag_invalid_env" (-1))).symm.trans hf)
      cases heq
      decide)

/-- Claim C7: when no environment-derived arguments exist `Parse` returns
success immediately after the first pass with its exact state (no second
parse), and whenever `Parse` succeeds its final positional arguments are
exactly those left over by the first pass (re-appended after a `--`
separator that is added only when at least one of them exists). -/
theorem c7_positional_preserved (environ : String → Option String) (o : option)
    (hwf : WF o.set)
    (h1 : (FlagSet.parse o.set o.args).2 = true) :
    (envArgs environ o.pfx (FlagSet.parse o.set o.args).1 = [] →
      Parse environ o = ((FlagSet.parse o.set o.args).1, true)) ∧
    ((Parse environ o).2 = true →
      (Parse environ o).1.args = (FlagSet.parse o.set o.args).1.args) := by
  constructor
  · intro hargs
    rw [Parse_def, if_neg (by rw [h1]; simp), if_pos hargs]
  · intro hok
    by_cases hargs : envArgs environ o.pfx (FlagSet.parse o.set o.args).1 = []
    · rw [Parse_def, if_neg (by rw [h1]; simp), if_pos hargs]
    · obtain ⟨t, ht, htt, hP⟩ := Parse_second environ o h1 hargs
      rw [hP] at hok ⊢
      rw [items_args (envPairs_good (firstPass_good o hwf) environ o.pfx) ht _ _ hok, htt]

def envC7 : String → Option String :=
  fun k => if k = "ENVFLAG_KEEP_ARGS" then some "42" else none

def oC7 : option := ⟨⟨[intFlag "envflag_keep_args" 0], [], []⟩, ["keep", "args"], ""⟩

theorem c7_witness :
    (Parse envC7 oC7).1.args = (FlagSet.parse oC7.set oC7.args).1.args :=
  (c7_positional_preserved envC7 oC7 ⟨by decide, by decide⟩ rfl).2 rfl

def envC7x : String → Option String := fun k => if k = "A" then some "bad" else none

def oC7x : option := ⟨⟨[intFlag "a" 0], [], []⟩, ["pos"], ""⟩

/-- When the second pass fails (env value `bad` rejected by the int flag
`a`), the flag set's positional-argument accessor is left mid-parse — here
holding `--` and `pos` — and differs from the first pass's `pos`: the
preservation is not unconditional over all inputs. -/
theorem c7_counterexample :
    (Parse envC7x oC7x).2 = false ∧
    (FlagSet.parse oC7x.set oC7x.args).1.args = ["pos"] ∧
    (Parse envC7x oC7x).1.args ≠ (FlagSet.parse oC7x.set oC7x.args).1.args :=
  ⟨rfl, rfl, by decide⟩

/-- Claim C8: after a successful `Parse`, every registered flag name has a
defined value drawn from exactly one of three mutually exclusive sources:
the command-line argument list (the first pass set it), the environment
(unset by the first pass, mapped variable present), or its registered
default (unset by the first pass, mapped variable absent). -/
theorem c8_every_flag_resolved (environ : String → Option String) (o : option)
    (hwf : WF o.set) (hfresh : Fresh o.set)
    (hok : (Parse environ o).2 = true) :
    ∀ n ∈ o.set.formal.map Flag.name, ∃ g w,
      lookupFlag o.set.formal n = some g ∧
      valueOf (Parse environ o).1 n = some w ∧
      ((n ∈ (FlagSet.parse o.set o.args).1.actual ∧
          valueOf (FlagSet.parse o.set o.args).1 n = some w) ∨
       (n ∉ (FlagSet.parse o.set o.args).1.actual ∧
          ∃ v, envLookup environ (o.pfx ++ n) = some v ∧ g.setFn (envValue g v) = some w) ∨
       (n ∉ (FlagSet.parse o.set o.args).1.actual ∧
          envLookup environ (o.pfx ++ n) = none ∧ w = g.defValue)) := by
  have h1 : (FlagSet.parse o.set o.args).2 = true := by
    cases hb : (FlagSet.parse o.set o.args).2 with
    | true => rfl
    | false =>
      rw [Parse_def, if_pos hb] at hok
      rw [hok] at hb
      cases hb
  have hg3 := firstPass_good o hwf
  have hshape := firstPass_shape o
  have hnames := map_name_eq_of_shape hshape
  intro n hreg
  have hreg1 : n ∈ (FlagSet.parse o.set o.args).1.formal.map Flag.name := hnames ▸ hreg
  obtain ⟨f1, hf1⟩ := lookupFlag_of_mem hreg1
  obtain ⟨hf1mem, hf1name⟩ := lookupFlag_mem hf1
  by_cases hn : n ∈ (FlagSet.parse o.set o.args).1.actual
  · -- set on the command line: first-pass value survives
    obtain ⟨g, hg⟩ := lookupFlag_of_mem hreg
    refine ⟨g, f1.value, hg, ?_, Or.inl ⟨hn, by rw [valueOf, hf1, Option.map_some']⟩⟩
    by_cases hargs : envArgs environ o.pfx (FlagSet.parse o.set o.args).1 = []
    · rw [Parse_def, if_neg (by rw [h1]; simp), if_pos hargs]
      rw [valueOf, hf1, Option.map_some']
    · obtain ⟨t, ht, htt, hP⟩ := Parse_second environ o h1 hargs
      have hnn : ∀ p ∈ envPairsOf environ o.pfx (unsetFlags (FlagSet.parse o.set o.args).1),
          p.1 ≠ n := by
        intro p hp hpn
        obtain ⟨f, hf, v, hv, rfl⟩ := mem_envPairsOf hp
        have hfn : f.name = n := hpn
        exact (mem_unsetFlags.mp hf).2 (hfn ▸ hn)
      rw [hP]
      unfold valueOf
      rw [items_preserve (envPairs_good hg3 environ o.pfx) hnn ht _ _, hf1, Option.map_some']
  · cases hv : envLookup environ (o.pfx ++ n) with
    | some v =>
      -- unset, environment variable present: its parsed value lands
      have hf1unset : f1 ∈ unsetFlags (FlagSet.parse o.set o.args).1 :=
        mem_unsetFlags.mpr ⟨hf1mem, hf1name ▸ hn⟩
      have hpair : (n, envValue f1 v) ∈
          envPairsOf environ o.pfx (unsetFlags (FlagSet.parse o.set o.args).1) := by
        have := mem_envPairsOf_of environ o.pfx hf1unset (by rw [hf1name]; exact hv)
        rwa [hf1name] at this
      have hargsne : envArgs environ o.pfx (FlagSet.parse o.set o.args).1 ≠ [] := by
        rw [envArgs, envArgsOf_eq_map]
        intro hemp
        rw [List.map_eq_nil_iff] at hemp
        rw [hemp] at hpair
        cases hpair
      obtain ⟨t, ht, htt, hP⟩ := Parse_second environ o h1 hargsne
      rw [hP] at hok ⊢
      obtain ⟨f, w, hf, hw, hval⟩ := items_apply (envPairs_good hg3 environ o.pfx)
        (envPairs_nodup (hnames ▸ hwf.1) environ o.pfx) hpair ht _ _ hok
      have hff1 : f1 = f := Option.some.inj (hf1.symm.trans hf)
      cases hff1
      obtain ⟨g, hg, hgname, hgdef, hgbool, hgset⟩ := lookup_shape_transfer hshape hf1
      refine ⟨g, w, hg, ?_, Or.inr (Or.inl ⟨hn, v, rfl, ?_⟩)⟩
      · unfold valueOf
        rw [hval]
        rfl
      · rw [← hgset, ← envValue_congr hgbool v]
        exact hw
    | none =>
      -- unset, no environment variable: the registered default survives
      have hfirst := parseLoop_untouched o.args o.set.formal o.set.actual hn
      have hg0 : lookupFlag o.set.formal n = some f1 := hfirst.symm.trans hf1
      have hdef : f1.value = f1.defValue := hfresh.2 f1 (lookupFlag_mem hg0).1
      refine ⟨f1, f1.defValue, hg0, ?_, Or.inr (Or.inr ⟨hn, rfl, rfl⟩)⟩
      by_cases hargs : envArgs environ o.pfx (FlagSet.parse o.set o.args).1 = []
      · rw [Parse_def, if_neg (by rw [h1]; simp), if_pos hargs]
        rw [valueOf, hf1, Option.map_some', hdef]
      · obtain ⟨t, ht, htt, hP⟩ := Parse_second environ o h1 hargs
        have hnn : ∀ p ∈ envPairsOf environ o.pfx
            (unsetFlags (FlagSet.parse o.set o.args).1), p.1 ≠ n := by
          intro p hp hpn
          obtain ⟨f, hf, v', hv', rfl⟩ := mem_envPairsOf hp
          have hfn : f.name = n := hpn
          rw [hfn] at hv'
          rw [hv'] at hv
          cases hv
        rw [hP]
        unfold valueOf
        rw [items_preserve (envPairs_good hg3 environ o.pfx) hnn ht _ _, hf1,
          Option.map_some', hdef]

def envC8 : String → Option String := fun k => if k = "B" then some "20" else none

def oC8 : option :=
  ⟨⟨[intFlag "a" 1, intFlag "b" 2, intFlag "c" 3], [], []⟩, ["--a=10"], ""⟩

theorem c8_witness :
    ∃ g w, lookupFlag oC8.set.formal "b" = some g ∧
      valueOf (Parse envC8 oC8).1 "b" = some w ∧
      (("b" ∈ (FlagSet.parse oC8.set oC8.args).1.actual ∧
          valueOf (FlagSet.parse oC8.set oC8.args).1 "b" = some w) ∨
       ("b" ∉ (FlagSet.parse oC8.set oC8.args).1.actual ∧
          ∃ v, envLookup envC8 (oC8.pfx ++ "b") = some v ∧ g.setFn (envValue g v) = some w) ∨
       ("b" ∉ (FlagSet.parse oC8.set oC8.args).1.actual ∧
          envLookup envC8 (oC8.pfx ++ "b") = none ∧ w = g.defValue)) :=
  c8_every_flag_resolved envC8 oC8 ⟨by decide, by decide⟩ ⟨rfl, by decide⟩ rfl "b" (by decide)

theorem envValue_empty (f : Flag) : envValue f "" = "" := by
  unfold envValue
  cases hb : f.isBool
  · rfl
  · rw [if_pos rfl]
    decide

theorem str_append_empty (s : String) : s ++ "" = s := by
  cases s with
  | mk d =>
    show String.mk (d ++ []) = String.mk d
    rw [List.append_nil]

/-- Claim C9: an environment variable set to the empty string counts as
present — the argument `--name=` is synthesized for an unset flag (the empty
value being unchanged by boolean normalization) — and when the flag's parser
rejects the empty string, `Parse` fails with an error rather than leaving
the flag at its default. -/
theorem c9_empty_env_value (environ : String → Option String) (o : option) (n : String)
    (hwf : WF o.set)
    (h1 : (FlagSet.parse o.set o.args).2 = true)
    (hreg : n ∈ o.set.formal.map Flag.name)
    (hn : n ∉ (FlagSet.parse o.set o.args).1.actual)
    (hv : envLookup environ (o.pfx ++ n) = some "")
    (hfail : ∀ f, lookupFlag o.set.formal n = some f → f.setFn "" = none) :
    ("--" ++ n ++ "=") ∈ envArgs environ o.pfx (FlagSet.parse o.set o.args).1 ∧
    (Parse environ o).2 = false := by
  have hg3 := firstPass_good o hwf
  have hnames := map_name_eq_of_shape (firstPass_shape o)
  have hreg1 : n ∈ (FlagSet.parse o.set o.args).1.formal.map Flag.name := hnames ▸ hreg
  obtain ⟨f1, hf1⟩ := lookupFlag_of_mem hreg1
  obtain ⟨hf1mem, hf1name⟩ := lookupFlag_mem hf1
  have hfirst := parseLoop_untouched o.args o.set.formal o.set.actual hn
  have hg0 : lookupFlag o.set.formal n = some f1 := hfirst.symm.trans hf1
  have hf1unset : f1 ∈ unsetFlags (FlagSet.parse o.set o.args).1 :=
    mem_unsetFlags.mpr ⟨hf1mem, hf1name ▸ hn⟩
  have hpair : (n, "") ∈
      envPairsOf environ o.pfx (unsetFlags (FlagSet.parse o.set o.args).1) := by
    have := mem_envPairsOf_of environ o.pfx hf1unset (by rw [hf1name]; exact hv)
    rwa [hf1name, envValue_empty] at this
  constructor
  · rw [envArgs, envArgsOf_eq_map]
    have hm := List.mem_map_of_mem mkItem hpair
    rwa [show mkItem (n, "") = "--" ++ n ++ "=" from str_append_empty _] at hm
  · have hargsne : envArgs environ o.pfx (FlagSet.parse o.set o.args).1 ≠ [] := by
      rw [envArgs, envArgsOf_eq_map]
      intro hemp
      rw [List.map_eq_nil_iff] at hemp
      rw [hemp] at hpair
      cases hpair
    obtain ⟨t, ht, htt, hP⟩ := Parse_second environ o h1 hargsne
    rw [hP]
    apply items_fail (envPairs_good hg3 environ o.pfx) hpair _ _ _
    intro f hf
    have heq : f1 = f := Option.some.inj (hf1.symm.trans hf)
    cases heq
    exact hfail f1 hg0

def envC9 : String → Option String := fun k => if k = "E9" then some "" else none

def oC9 : option := ⟨⟨[intFlag "e9" 3], [], []⟩, [], ""⟩

theorem c9_witness :
    ("--" ++ "e9" ++ "=") ∈ envArgs envC9 oC9.pfx (FlagSet.parse oC9.set oC9.args).1 ∧
    (Parse envC9 oC9).2 = false :=
  c9_empty_env_value envC9 oC9 "e9" ⟨by decide, by decide⟩ rfl (by decide) (by decide) rfl
    (by
      intro f hf
      have heq : intFlag "e9" 3 = f :=
        Option.some.inj ((rfl : lookupFlag oC9.set.formal "e9" =
          some (intFlag "e9" 3)).symm.trans hf)
      cases heq
      decide)

end Envflag
